import Mathlib

/-!
Verification of the SignVault electronic-signing core against its
specification.  The data model is taken from the SQL schema
(backend/migrations/20240101000001_initial_schema.sql) and the TypeScript
types (frontend/src/types/index.ts).  The backend Rust implementation of
the hash-chain ledger, the lifecycle controller, the field registry and
the certificate generator is not part of the source tree (only the schema,
the TypeScript client and the shell scripts are), so those operations are
modelled from the specification text; each such definition carries a doc
comment starting with Modelled from the spec.  The signing-page and
signature-pad behaviour is embedded directly from the TSX sources.
-/

namespace SignVault

/-- Document status enum, from the SQL type document_status and the TS union DocumentStatus. -/
inductive DocumentStatus where
  | draft
  | pending
  | completed
  | voided
  | expired
deriving DecidableEq, Repr

/-- Field type enum, from the SQL type field_type and the TS union FieldType. -/
inductive FieldType where
  | signature
  | date
  | text
  | initial
deriving DecidableEq, Repr

/-- Signer status enum, from the SQL type signer_status and the TS union SignerStatus. -/
inductive SignerStatus where
  | pending
  | sent
  | viewed
  | signed
  | declined
deriving DecidableEq, Repr

/-- Audit action enum, from the SQL type audit_action and the TS union AuditAction. -/
inductive AuditAction where
  | document_created
  | document_uploaded
  | document_viewed
  | document_sent
  | document_completed
  | document_voided
  | document_downloaded
  | field_added
  | field_updated
  | field_deleted
  | signer_added
  | signer_removed
  | signer_email_sent
  | signer_viewed
  | signer_signed
  | signer_declined
  | signature_applied
  | certificate_generated
deriving DecidableEq, Repr

/-- Hashed content of an audit log entry: every column of the audit_logs
table except entry_hash and previous_hash (id is the surrogate key and is
not part of the canonical serialization; created_at is the timestamp).
Timestamps are modelled as natural numbers. -/
structure EntryContent where
  document_id : String
  signer_id : Option String
  user_id : Option String
  action : AuditAction
  ip_address : Option String
  user_agent : Option String
  details : Option String
  created_at : Nat
deriving DecidableEq, Repr

/-- Modelled from the spec: the backend computes a collision-resistant
512-bit digest over the canonical serialization of an entry concatenated
with the previous hash.  The missing Rust hashing code is modelled by an
ideal (injective) digest: a free constructor applied to the canonical
content and the optional previous digest, which makes collision freedom a
theorem instead of an assumption. -/
inductive Digest where
  | first (c : EntryContent)
  | chained (c : EntryContent) (prev : Digest)
deriving DecidableEq, Repr

/-- Digest of canonical content together with an optional previous hash,
H(canonical_serialization(entry) concatenated with previous_hash). -/
def hashEntry (c : EntryContent) : Option Digest → Digest
  | none => Digest.first c
  | some d => Digest.chained c d

/-- Audit log row, from the audit_logs table: canonical content plus the
entry_hash and previous_hash columns (previous_hash is nullable). -/
structure AuditLogEntry where
  content : EntryContent
  entry_hash : Digest
  previous_hash : Option Digest
deriving DecidableEq, Repr

/-- Hash of the last entry of the chain, threading a starting hash; used to
define the chain tail that an append loads. -/
def tailFrom (prev : Option Digest) : List AuditLogEntry → Option Digest
  | [] => prev
  | e :: rest => tailFrom (some e.entry_hash) rest

/-- Modelled from the spec: the current chain tail of a per-document
ledger, the entry hash of the last committed entry, or null for an empty
ledger. -/
def chainTail (ledger : List AuditLogEntry) : Option Digest :=
  tailFrom none ledger

/-- Modelled from the spec: append loads the current chain tail, computes
the hash of the new entry over its canonical content plus the tail hash,
and commits the entry at the end of the sequence. -/
def appendEntry (ledger : List AuditLogEntry) (c : EntryContent) : List AuditLogEntry :=
  ledger ++ [{ content := c, entry_hash := hashEntry c (chainTail ledger), previous_hash := chainTail ledger }]

/-- Ledger produced by a sequence of valid append operations starting from
the empty per-document ledger. -/
def buildLedger (cs : List EntryContent) : List AuditLogEntry :=
  cs.foldl appendEntry []

/-- Modelled from the spec: the verification walk.  It recomputes each
entry hash from the canonical content and the predecessor hash in sequence
order and returns the index of the first mismatching entry, or none. -/
def verifyFrom (prev : Option Digest) (i : Nat) : List AuditLogEntry → Option Nat
  | [] => none
  | e :: rest =>
      if e.previous_hash = prev ∧ e.entry_hash = hashEntry e.content e.previous_hash then
        verifyFrom (some e.entry_hash) (i + 1) rest
      else
        some i

/-- Modelled from the spec: verify(document_id) returns none when the whole
chain checks out (valid) and some i (broken_at = i) at the first mismatch. -/
def verify (ledger : List AuditLogEntry) : Option Nat :=
  verifyFrom none 0 ledger

/-- The hash-chain well-formedness predicate relative to a starting hash:
each entry stores the running previous hash and an entry hash recomputable
from its canonical content and that previous hash. -/
def chainOkFrom : Option Digest → List AuditLogEntry → Prop
  | _, [] => True
  | prev, e :: rest =>
      e.previous_hash = prev ∧ e.entry_hash = hashEntry e.content e.previous_hash ∧
        chainOkFrom (some e.entry_hash) rest

theorem hashEntry_inj {c c2 : EntryContent} {p p2 : Option Digest}
    (h : hashEntry c p = hashEntry c2 p2) : c = c2 ∧ p = p2 := by
  cases p <;> cases p2 <;> simp_all [hashEntry]

theorem chainOkFrom_append_singleton (e : AuditLogEntry) (l : List AuditLogEntry) :
    ∀ (prev : Option Digest),
      chainOkFrom prev (l ++ [e]) ↔
        chainOkFrom prev l ∧ e.previous_hash = tailFrom prev l ∧
          e.entry_hash = hashEntry e.content e.previous_hash := by
  induction l with
  | nil =>
      intro prev
      simp only [List.nil_append, chainOkFrom, tailFrom]
      tauto
  | cons x l ih =>
      intro prev
      simp only [List.cons_append, List.append_eq, chainOkFrom, tailFrom,
        ih (some x.entry_hash)]
      tauto

theorem foldl_appendEntry_ok (cs : List EntryContent) :
    ∀ (l : List AuditLogEntry), chainOkFrom none l →
      chainOkFrom none (cs.foldl appendEntry l) := by
  induction cs with
  | nil => intro l h; simpa using h
  | cons c cs ih =>
      intro l h
      simp only [List.foldl_cons]
      exact ih _ ((chainOkFrom_append_singleton _ _ _).mpr ⟨h, rfl, rfl⟩)

theorem buildLedger_chainOk (cs : List EntryContent) :
    chainOkFrom none (buildLedger cs) :=
  foldl_appendEntry_ok cs [] trivial

theorem verifyFrom_eq_none_iff :
    ∀ (l : List AuditLogEntry) (prev : Option Digest) (i : Nat),
      verifyFrom prev i l = none ↔ chainOkFrom prev l
  | [], _, _ => by simp [verifyFrom, chainOkFrom]
  | e :: rest, prev, i => by
      simp only [verifyFrom, chainOkFrom]
      split
      · next hcond =>
          simp only [verifyFrom_eq_none_iff rest (some e.entry_hash) (i + 1)]
          tauto
      · next hcond => simp; tauto

theorem chainOkFrom_get_hash :
    ∀ (l : List AuditLogEntry) (prev : Option Digest),
      chainOkFrom prev l → ∀ (i : Nat) (h : i < l.length),
        (l.get ⟨i, h⟩).entry_hash
          = hashEntry (l.get ⟨i, h⟩).content (l.get ⟨i, h⟩).previous_hash
  | [], _, _, i, h => absurd h (by simp)
  | _ :: _, _, hok, 0, _ => hok.2.1
  | _ :: rest, _, hok, i + 1, h =>
      chainOkFrom_get_hash rest _ hok.2.2 i (by simpa using h)

theorem chainOkFrom_get_zero :
    ∀ (l : List AuditLogEntry) (prev : Option Digest),
      chainOkFrom prev l → ∀ (h : 0 < l.length),
        (l.get ⟨0, h⟩).previous_hash = prev
  | [], _, _, h => absurd h (by simp)
  | _ :: _, _, hok, _ => hok.1

theorem chainOkFrom_get_succ :
    ∀ (l : List AuditLogEntry) (prev : Option Digest),
      chainOkFrom prev l → ∀ (i : Nat) (h : i < l.length) (h2 : i + 1 < l.length),
        (l.get ⟨i + 1, h2⟩).previous_hash = some ((l.get ⟨i, h⟩).entry_hash)
  | [], _, _, i, h, _ => absurd h (by simp)
  | [_], _, _, 0, _, h2 => absurd h2 (by simp)
  | _ :: _ :: _, _, hok, 0, _, _ => hok.2.2.1
  | _ :: rest, _, hok, i + 1, h, h2 =>
      chainOkFrom_get_succ rest _ hok.2.2 i (by simpa using h) (by simpa using h2)

/-- C1: for every document the ordered audit log is a hash chain: verify
returns valid over any sequence of valid append operations, each entry
hash is the digest of the canonical content of the entry together with its
previous hash, the previous hash is null exactly for the first entry, and
each previous hash equals the entry hash of the preceding entry. -/
theorem c1_hash_chain_invariant (cs : List EntryContent) :
    verify (buildLedger cs) = none ∧
    ∀ (i : Nat) (h : i < (buildLedger cs).length),
      ((buildLedger cs).get ⟨i, h⟩).entry_hash
          = hashEntry ((buildLedger cs).get ⟨i, h⟩).content
              ((buildLedger cs).get ⟨i, h⟩).previous_hash ∧
      (((buildLedger cs).get ⟨i, h⟩).previous_hash = none ↔ i = 0) ∧
      ∀ (h2 : i + 1 < (buildLedger cs).length),
        ((buildLedger cs).get ⟨i + 1, h2⟩).previous_hash
          = some (((buildLedger cs).get ⟨i, h⟩).entry_hash) := by
  have hok := buildLedger_chainOk cs
  refine ⟨(verifyFrom_eq_none_iff _ none 0).mpr hok, ?_⟩
  intro i h
  refine ⟨chainOkFrom_get_hash _ none hok i h, ?_, ?_⟩
  · constructor
    · intro hnone
      by_contra hi
      obtain ⟨j, rfl⟩ := Nat.exists_eq_succ_of_ne_zero hi
      have hj : j < (buildLedger cs).length := Nat.lt_of_succ_lt h
      have := chainOkFrom_get_succ _ none hok j hj h
      rw [this] at hnone
      exact Option.noConfusion hnone
    · rintro rfl
      exact chainOkFrom_get_zero _ none hok h
  · intro h2
    exact chainOkFrom_get_succ _ none hok i h h2

/-- Concrete audit contents used to witness the ledger theorems. -/
def demoEntries : List EntryContent :=
  [{ document_id := "doc1", signer_id := none, user_id := some "u1",
     action := AuditAction.document_created, ip_address := some "10.0.0.1",
     user_agent := some "agent", details := none, created_at := 100 },
   { document_id := "doc1", signer_id := some "s1", user_id := none,
     action := AuditAction.signer_added, ip_address := some "10.0.0.1",
     user_agent := some "agent", details := some "sig1", created_at := 101 },
   { document_id := "doc1", signer_id := some "s1", user_id := none,
     action := AuditAction.signer_signed, ip_address := some "10.0.0.9",
     user_agent := some "agent2", details := none, created_at := 105 }]

theorem chainOkFrom_append_split :
    ∀ (l1 l2 : List AuditLogEntry) (prev : Option Digest),
      chainOkFrom prev (l1 ++ l2) →
        chainOkFrom prev l1 ∧ chainOkFrom (tailFrom prev l1) l2
  | [], _, _, h => ⟨trivial, h⟩
  | x :: l1, l2, _prev, h =>
      have hrec := chainOkFrom_append_split l1 l2 (some x.entry_hash) h.2.2
      ⟨⟨h.1, h.2.1, hrec.1⟩, hrec.2⟩

theorem verifyFrom_append_of_ok :
    ∀ (l1 : List AuditLogEntry) (prev : Option Digest) (k : Nat)
      (l2 : List AuditLogEntry), chainOkFrom prev l1 →
      verifyFrom prev k (l1 ++ l2) = verifyFrom (tailFrom prev l1) (k + l1.length) l2
  | [], _, _, _, _ => by simp [tailFrom]
  | x :: l1, prev, k, l2, hok => by
      simp only [List.cons_append, List.append_eq, verifyFrom, tailFrom]
      rw [if_pos ⟨hok.1, hok.2.1⟩,
        verifyFrom_append_of_ok l1 (some x.entry_hash) (k + 1) l2 hok.2.2]
      congr 1
      simp only [List.length_cons]
      omega

/-- Mutation of exactly one stored field of a committed audit row: the
canonical content changes (any of its columns, the timestamp included), or
the stored entry_hash changes, or the stored previous_hash changes, while
the other two stay as committed. -/
def singleFieldMutation (e e2 : AuditLogEntry) : Prop :=
  (e2.content ≠ e.content ∧ e2.entry_hash = e.entry_hash ∧ e2.previous_hash = e.previous_hash) ∨
  (e2.content = e.content ∧ e2.entry_hash ≠ e.entry_hash ∧ e2.previous_hash = e.previous_hash) ∨
  (e2.content = e.content ∧ e2.entry_hash = e.entry_hash ∧ e2.previous_hash ≠ e.previous_hash)

instance (e e2 : AuditLogEntry) : Decidable (singleFieldMutation e e2) := by
  unfold singleFieldMutation
  infer_instance

/-- C3: verify recomputes every entry hash from the canonical content and
predecessor hash in sequence order and reports valid on an untampered
ledger, while mutating any single stored field of the committed entry at
index i (its timestamp included) makes verify report broken_at = i, the
index of the first mismatching entry. -/
theorem c3_tamper_detection (cs : List EntryContent) (i : Nat)
    (h : i < (buildLedger cs).length) (e2 : AuditLogEntry)
    (hm : singleFieldMutation ((buildLedger cs).get ⟨i, h⟩) e2) :
    verify (buildLedger cs) = none ∧
    verify ((buildLedger cs).set i e2) = some i := by
  have hok : chainOkFrom none (buildLedger cs) := buildLedger_chainOk cs
  refine ⟨(verifyFrom_eq_none_iff _ none 0).mpr hok, ?_⟩
  have hdecomp : (buildLedger cs).take i ++
      (buildLedger cs).get ⟨i, h⟩ :: (buildLedger cs).drop (i + 1) = buildLedger cs := by
    rw [List.get_eq_getElem, List.getElem_cons_drop, List.take_append_drop]
  have hsplit := chainOkFrom_append_split _ _ none (hdecomp ▸ hok)
  have htkok : chainOkFrom none ((buildLedger cs).take i) := hsplit.1
  have hmid := hsplit.2
  have hprev : ((buildLedger cs).get ⟨i, h⟩).previous_hash
      = tailFrom none ((buildLedger cs).take i) := hmid.1
  have hhash : ((buildLedger cs).get ⟨i, h⟩).entry_hash
      = hashEntry ((buildLedger cs).get ⟨i, h⟩).content
          ((buildLedger cs).get ⟨i, h⟩).previous_hash := hmid.2.1
  have hlen : ((buildLedger cs).take i).length = i := by
    rw [List.length_take]; omega
  have hcheckfail : ¬(e2.previous_hash = tailFrom none ((buildLedger cs).take i) ∧
      e2.entry_hash = hashEntry e2.content e2.previous_hash) := by
    rintro ⟨hc1, hc2⟩
    rcases hm with ⟨hc, hh, hp⟩ | ⟨hc, hh, hp⟩ | ⟨hc, hh, hp⟩
    · apply hc
      have : hashEntry ((buildLedger cs).get ⟨i, h⟩).content e2.previous_hash
          = hashEntry e2.content e2.previous_hash := by
        rw [← hc2, hh, hhash, hp]
      exact (hashEntry_inj this).1.symm
    · apply hh
      rw [hc2, hc, hp, ← hhash]
    · exact hp (hc1.trans hprev.symm)
  rw [List.set_eq_take_cons_drop e2 h]
  unfold verify
  rw [verifyFrom_append_of_ok _ none 0 _ htkok, hlen]
  simp only [verifyFrom, Nat.zero_add]
  rw [if_neg hcheckfail]

theorem c3_tamper_detection_witness :
    verify (buildLedger demoEntries) = none ∧
    verify ((buildLedger demoEntries).set 1
      { (buildLedger demoEntries).get ⟨1, by decide⟩ with
        content := { ((buildLedger demoEntries).get ⟨1, by decide⟩).content with
                       created_at := 999 } }) = some 1 :=
  c3_tamper_detection demoEntries 1 (by decide) _ (by decide)

theorem c1_hash_chain_invariant_witness :
    verify (buildLedger demoEntries) = none ∧
    ((buildLedger demoEntries).get ⟨1, by decide⟩).previous_hash
      = some (((buildLedger demoEntries).get ⟨0, by decide⟩).entry_hash) :=
  ⟨(c1_hash_chain_invariant demoEntries).1,
   ((c1_hash_chain_invariant demoEntries).2 0 (by decide)).2.2 (by decide)⟩

/-- Aggregated per-document state seen by the Document Lifecycle
Controller: the document status column plus the status of each of the
signers of the document, indexed by position. -/
structure DocState where
  status : DocumentStatus
  signers : List SignerStatus
deriving DecidableEq, Repr

/-- Events driving the lifecycle around completion: a signer finishing all
of their required fields, a signer declining, the explicit administrative
void request, and a direct external completion request (which the spec
says must never cause the transition). -/
inductive LifecycleEvent where
  | submitSign (i : Nat)
  | declineSign (i : Nat)
  | voidRequest
  | completeRequest
deriving DecidableEq, Repr

/-- A signer may act (sign or decline) while sent or viewed. -/
def canAct : SignerStatus → Bool
  | SignerStatus.sent => true
  | SignerStatus.viewed => true
  | _ => false

/-- Every signer of the document has reached signed. -/
def allSigned (ss : List SignerStatus) : Bool :=
  ss.all fun s => decide (s = SignerStatus.signed)

/-- Some signer of the document has declined. -/
def anyDeclined (ss : List SignerStatus) : Bool :=
  ss.any fun s => decide (s = SignerStatus.declined)

/-- Modelled from the spec: the single authoritative completion
computation, run after every signer transition; pending flips to completed
exactly when all signers are signed and no signer is declined. -/
def recheckCompletion (d : DocState) : DocState :=
  if d.status = DocumentStatus.pending ∧ allSigned d.signers = true ∧
      anyDeclined d.signers = false then
    { d with status := DocumentStatus.completed }
  else d

/-- Modelled from the spec: one controller step.  A signing submission by
signer i (legal only on a pending document while the signer is sent or
viewed) marks the signer signed and re-evaluates completion; a decline
marks the signer declined and never completes nor voids; voidRequest is
the explicit manual void of a pending document; completeRequest, a direct
external request for completion, is rejected and changes nothing. -/
def step (d : DocState) : LifecycleEvent → DocState
  | LifecycleEvent.submitSign i =>
      match d.status, d.signers[i]? with
      | DocumentStatus.pending, some s =>
          if canAct s then
            recheckCompletion { d with signers := d.signers.set i SignerStatus.signed }
          else d
      | _, _ => d
  | LifecycleEvent.declineSign i =>
      match d.status, d.signers[i]? with
      | DocumentStatus.pending, some s =>
          if canAct s then
            { d with signers := d.signers.set i SignerStatus.declined }
          else d
      | _, _ => d
  | LifecycleEvent.voidRequest =>
      if d.status = DocumentStatus.pending then
        { d with status := DocumentStatus.voided }
      else d
  | LifecycleEvent.completeRequest => d

/-- Running a sequence of lifecycle events. -/
def runEvents (d : DocState) (es : List LifecycleEvent) : DocState :=
  es.foldl step d

theorem recheckCompletion_signers (d : DocState) :
    (recheckCompletion d).signers = d.signers := by
  unfold recheckCompletion
  split <;> rfl

theorem recheckCompletion_status (d : DocState)
    (hd : d.status = DocumentStatus.pending) :
    (recheckCompletion d).status = DocumentStatus.completed ↔
      allSigned d.signers = true ∧ anyDeclined d.signers = false := by
  unfold recheckCompletion
  split
  · next hcond => exact ⟨fun _ => ⟨hcond.2.1, hcond.2.2⟩, fun _ => rfl⟩
  · next hcond =>
      refine ⟨fun hc => ?_, fun hr => absurd ⟨hd, hr.1, hr.2⟩ hcond⟩
      rw [hd] at hc
      cases hc

theorem anyDeclined_set_of_other {ss : List SignerStatus} {i : Nat} {s v : SignerStatus}
    (hget : ss[i]? = some s) (hs : s ≠ SignerStatus.declined)
    (hd : anyDeclined ss = true) : anyDeclined (ss.set i v) = true := by
  obtain ⟨x, hx, hxd⟩ := List.any_eq_true.mp hd
  have hxdec : x = SignerStatus.declined := of_decide_eq_true hxd
  obtain ⟨j, hj⟩ := List.mem_iff_getElem?.mp hx
  have hij : i ≠ j := by
    rintro rfl
    rw [hget] at hj
    exact hs (Option.some.injEq _ _ ▸ hj ▸ hxdec ▸ rfl)
  refine List.any_eq_true.mpr ⟨x, ?_, hxd⟩
  exact List.mem_iff_getElem?.mpr ⟨j, by rw [List.getElem?_set_ne hij]; exact hj⟩

theorem anyDeclined_set_declined {ss : List SignerStatus} {i : Nat} {s : SignerStatus}
    (hget : ss[i]? = some s) :
    anyDeclined (ss.set i SignerStatus.declined) = true := by
  have hlen : i < ss.length := by
    by_contra hlt
    rw [List.getElem?_eq_none (by omega)] at hget
    cases hget
  refine List.any_eq_true.mpr ⟨SignerStatus.declined, ?_, by decide⟩
  exact List.mem_iff_getElem?.mpr ⟨i, List.getElem?_set_self hlen⟩

theorem recheck_mk_pending_status (ss : List SignerStatus) :
    (recheckCompletion { status := DocumentStatus.pending, signers := ss }).status
      = (if allSigned ss = true ∧ anyDeclined ss = false then DocumentStatus.completed
         else DocumentStatus.pending) := by
  unfold recheckCompletion
  by_cases h : allSigned ss = true ∧ anyDeclined ss = false
  · rw [if_pos ⟨rfl, h.1, h.2⟩, if_pos h]
  · rw [if_neg ?_, if_neg h]
    rintro ⟨_, h1, h2⟩
    exact h ⟨h1, h2⟩

theorem recheck_mk_pending_signers (ss : List SignerStatus) :
    (recheckCompletion { status := DocumentStatus.pending, signers := ss }).signers = ss :=
  recheckCompletion_signers _

theorem step_pending_declined (d : DocState) (e : LifecycleEvent)
    (hd : d.status = DocumentStatus.pending)
    (hdec : anyDeclined d.signers = true)
    (hv : e ≠ LifecycleEvent.voidRequest) :
    (step d e).status = DocumentStatus.pending ∧
      anyDeclined (step d e).signers = true := by
  cases e with
  | submitSign i =>
      simp only [step]
      rw [hd]
      cases hget : d.signers[i]? with
      | none => exact ⟨hd, hdec⟩
      | some s =>
          dsimp only
          by_cases hact : canAct s = true
          · rw [if_pos hact]
            have hs : s ≠ SignerStatus.declined := by
              cases s <;> simp_all [canAct]
            have hdec2 : anyDeclined (d.signers.set i SignerStatus.signed) = true :=
              anyDeclined_set_of_other hget hs hdec
            rw [recheck_mk_pending_status, recheck_mk_pending_signers]
            have hnc : ¬(allSigned (d.signers.set i SignerStatus.signed) = true ∧
                anyDeclined (d.signers.set i SignerStatus.signed) = false) := by
              rintro ⟨_, h2⟩
              rw [hdec2] at h2
              cases h2
            rw [if_neg hnc]
            exact ⟨rfl, hdec2⟩
          · rw [if_neg hact]
            exact ⟨hd, hdec⟩
  | declineSign i =>
      simp only [step]
      rw [hd]
      cases hget : d.signers[i]? with
      | none => exact ⟨hd, hdec⟩
      | some s =>
          dsimp only
          by_cases hact : canAct s = true
          · rw [if_pos hact]
            exact ⟨rfl, anyDeclined_set_declined hget⟩
          · rw [if_neg hact]
            exact ⟨hd, hdec⟩
  | voidRequest => exact absurd rfl hv
  | completeRequest => exact ⟨hd, hdec⟩

theorem runEvents_pending_declined (es : List LifecycleEvent) :
    ∀ (d : DocState), d.status = DocumentStatus.pending →
      anyDeclined d.signers = true → LifecycleEvent.voidRequest ∉ es →
      (runEvents d es).status = DocumentStatus.pending := by
  induction es with
  | nil => intro d hd _ _; exact hd
  | cons e es ih =>
      intro d hd hdec hv
      have hne : e ≠ LifecycleEvent.voidRequest := fun h => hv (h ▸ List.mem_cons_self e es)
      have hstep := step_pending_declined d e hd hdec hne
      exact ih (step d e) hstep.1 hstep.2 (fun h => hv (List.mem_cons_of_mem e h))

/-- Concrete pending document used to witness the lifecycle theorems. -/
def demoDoc : DocState :=
  { status := DocumentStatus.pending,
    signers := [SignerStatus.sent, SignerStatus.viewed, SignerStatus.signed] }

/-- C2: on a pending document (not yet in the all-signed configuration) a
controller step reaches completed exactly when afterwards every signer is
signed and no signer is declined; a direct external completion request
never changes anything; and once any signer has declined the document
stays pending under every event sequence that does not contain the
explicit manual void. -/
theorem c2_completion_exactness (d : DocState) (e : LifecycleEvent)
    (hd : d.status = DocumentStatus.pending)
    (hns : allSigned d.signers = false) :
    ((step d e).status = DocumentStatus.completed ↔
       allSigned (step d e).signers = true ∧ anyDeclined (step d e).signers = false) ∧
    step d LifecycleEvent.completeRequest = d ∧
    (anyDeclined d.signers = true → ∀ (es : List LifecycleEvent),
       LifecycleEvent.voidRequest ∉ es →
       (runEvents d es).status = DocumentStatus.pending) := by
  refine ⟨?_, rfl, fun hdec es hv => runEvents_pending_declined es d hd hdec hv⟩
  cases e with
  | submitSign i =>
      simp only [step]
      rw [hd]
      cases hget : d.signers[i]? with
      | none =>
          dsimp only
          rw [hd, hns]
          simp
      | some s =>
          dsimp only
          by_cases hact : canAct s = true
          · rw [if_pos hact, recheck_mk_pending_status, recheck_mk_pending_signers]
            split
            · next hcond => simp [hcond.1, hcond.2]
            · next hcond =>
                constructor
                · intro hc; exact absurd hc (by decide)
                · intro hr; exact absurd hr hcond
          · rw [if_neg hact, hd, hns]
            simp
  | declineSign i =>
      simp only [step]
      rw [hd]
      cases hget : d.signers[i]? with
      | none =>
          dsimp only
          rw [hd, hns]
          simp
      | some s =>
          dsimp only
          by_cases hact : canAct s = true
          · rw [if_pos hact]
            dsimp only
            have hdecl := anyDeclined_set_declined (i := i) hget
            constructor
            · intro hc; exact absurd hc (by decide)
            · rintro ⟨_, hfalse⟩
              rw [hdecl] at hfalse
              cases hfalse
          · rw [if_neg hact, hd, hns]
            simp
  | voidRequest =>
      simp only [step]
      rw [if_pos hd]
      dsimp only
      rw [hns]
      simp
  | completeRequest =>
      simp only [step]
      rw [hd, hns]
      simp

theorem c2_completion_exactness_witness :
    (step demoDoc (LifecycleEvent.submitSign 0)).status = DocumentStatus.completed ↔
      allSigned (step demoDoc (LifecycleEvent.submitSign 0)).signers = true ∧
      anyDeclined (step demoDoc (LifecycleEvent.submitSign 0)).signers = false :=
  (c2_completion_exactness demoDoc (LifecycleEvent.submitSign 0) rfl (by decide)).1

/-- Per-signer attestation block of the certificate, from the TS interface
CertificateSigner (timestamps as naturals). -/
structure CertificateSigner where
  name : String
  email : String
  signed_at : Nat
  ip_address : String
  signature_hash : String
deriving DecidableEq, Repr

/-- Document metadata consumed by the certificate generator, from the
documents table columns used by the TS Certificate interface. -/
structure DocumentMeta where
  document_id : String
  document_title : String
  document_hash : String
  created_at : Nat
  completed_at : Option Nat
  status : DocumentStatus
deriving DecidableEq, Repr

/-- Serialized certificate body: every field of the TS interface
Certificate except certificate_hash (which is computed over this body) and
generated_at (the generation timestamp). -/
structure CertificateBody where
  document_id : String
  document_title : String
  document_hash : String
  created_at : Nat
  completed_at : Option Nat
  signers : List CertificateSigner
  audit_trail : List AuditLogEntry
deriving DecidableEq, Repr

/-- Modelled from the spec: ideal collision-free digest over the canonical
serialization of the certificate body, excluding the hash itself. -/
inductive CertDigest where
  | hashBody (b : CertificateBody)
deriving DecidableEq, Repr

/-- Completion certificate, from the TS interface Certificate. -/
structure Certificate where
  body : CertificateBody
  certificate_hash : CertDigest
  generated_at : Nat
deriving DecidableEq, Repr

/-- Error kinds of the core, from spec section 7. -/
inductive SvError where
  | illegalTransition
  | validationFailure
  | integrityViolation
  | concurrencyConflict
deriving DecidableEq, Repr

/-- Modelled from the spec: generate(document_id) is callable only when
the document status is completed, must first verify the ledger and refuses
to generate over a broken chain, then computes certificate_hash over the
canonical serialization of the collected body. -/
def generate (m : DocumentMeta) (ledger : List AuditLogEntry)
    (att : List CertificateSigner) (now : Nat) : Except SvError Certificate :=
  if m.status ≠ DocumentStatus.completed then
    Except.error SvError.illegalTransition
  else if (verify ledger).isSome then
    Except.error SvError.integrityViolation
  else
    let b : CertificateBody :=
      { document_id := m.document_id, document_title := m.document_title,
        document_hash := m.document_hash, created_at := m.created_at,
        completed_at := m.completed_at, signers := att, audit_trail := ledger }
    Except.ok { body := b, certificate_hash := CertDigest.hashBody b, generated_at := now }

/-- State of the generator for one document: metadata, ledger, attestation
data, the certificate stored at first generation, and the clock. -/
structure CertSystem where
  meta : DocumentMeta
  ledger : List AuditLogEntry
  attestations : List CertificateSigner
  certStore : Option Certificate
  now : Nat
deriving DecidableEq, Repr

/-- Modelled from the spec: the certificate is generated once per
completed document; a later call finds the stored certificate and returns
it unchanged, so regeneration is reproducible and stable. -/
def generateOp (s : CertSystem) : CertSystem × Except SvError Certificate :=
  match s.certStore with
  | some c => (s, Except.ok c)
  | none =>
      match generate s.meta s.ledger s.attestations s.now with
      | Except.ok c => ({ s with certStore := some c }, Except.ok c)
      | Except.error e => (s, Except.error e)

theorem generateOp_eq_of_store (s : CertSystem) (c0 : Certificate)
    (hs : s.certStore = some c0) : generateOp s = (s, Except.ok c0) := by
  unfold generateOp
  rw [hs]

theorem generateOp_eq_of_none_ok (s : CertSystem) (c1 : Certificate)
    (hs : s.certStore = none)
    (hg : generate s.meta s.ledger s.attestations s.now = Except.ok c1) :
    generateOp s = ({ s with certStore := some c1 }, Except.ok c1) := by
  unfold generateOp
  rw [hs, hg]

theorem generateOp_eq_of_none_err (s : CertSystem) (e : SvError)
    (hs : s.certStore = none)
    (hg : generate s.meta s.ledger s.attestations s.now = Except.error e) :
    generateOp s = (s, Except.error e) := by
  unfold generateOp
  rw [hs, hg]

theorem generateOp_ok_state (s : CertSystem) (c : Certificate)
    (h1 : (generateOp s).2 = Except.ok c) :
    (generateOp s).1.certStore = some c ∧ (generateOp s).1.ledger = s.ledger := by
  cases hs : s.certStore with
  | some c0 =>
      rw [generateOp_eq_of_store s c0 hs] at h1 ⊢
      cases h1
      exact ⟨hs, rfl⟩
  | none =>
      cases hg : generate s.meta s.ledger s.attestations s.now with
      | ok c1 =>
          rw [generateOp_eq_of_none_ok s c1 hs hg] at h1 ⊢
          cases h1
          exact ⟨rfl, rfl⟩
      | error e =>
          rw [generateOp_eq_of_none_err s e hs hg] at h1
          cases h1

/-- C4: certificate generation is idempotent.  A successful generate call
leaves the ledger unmodified, and a second call on the resulting state
(even at a later clock value) returns the byte-identical certificate, in
particular an identical certificate_hash. -/
theorem c4_certificate_idempotent (s : CertSystem) (c : Certificate) (t2 : Nat)
    (h1 : (generateOp s).2 = Except.ok c) :
    (generateOp s).1.ledger = s.ledger ∧
    (generateOp { (generateOp s).1 with now := t2 }).2 = Except.ok c := by
  obtain ⟨hstore, hledger⟩ := generateOp_ok_state s c h1
  refine ⟨hledger, ?_⟩
  have hs2 : ({ (generateOp s).1 with now := t2 } : CertSystem).certStore = some c := hstore
  rw [generateOp_eq_of_store _ c hs2]

/-- Concrete certificate system used to witness the idempotence theorem. -/
def demoCertSystem : CertSystem :=
  { meta := { document_id := "doc1", document_title := "Lease",
              document_hash := "fhash", created_at := 50,
              completed_at := some 200, status := DocumentStatus.completed },
    ledger := buildLedger demoEntries,
    attestations := [{ name := "Ann Signer", email := "ann@example.com",
                       signed_at := 180, ip_address := "10.0.0.9",
                       signature_hash := "shash" }],
    certStore := none,
    now := 200 }

/-- Certificate body produced for the demo certificate system. -/
def demoBody : CertificateBody :=
  { document_id := "doc1", document_title := "Lease",
    document_hash := "fhash", created_at := 50,
    completed_at := some 200, signers := demoCertSystem.attestations,
    audit_trail := buildLedger demoEntries }

theorem c4_certificate_idempotent_witness :
    (generateOp demoCertSystem).1.ledger = demoCertSystem.ledger ∧
    (generateOp { (generateOp demoCertSystem).1 with now := 999 }).2
      = Except.ok { body := demoBody,
                    certificate_hash := CertDigest.hashBody demoBody,
                    generated_at := 200 } :=
  c4_certificate_idempotent demoCertSystem
    { body := demoBody, certificate_hash := CertDigest.hashBody demoBody,
      generated_at := 200 } 999 (by rfl)

/-- Client-side value entry for a date or text field, from the SigningPage
interface FieldValue. -/
structure FieldValue where
  fieldId : String
  value : String
deriving DecidableEq, Repr

/-- Client-side saved signature entry, from the SigningPage interface
SignatureValue. -/
structure SignatureValue where
  fieldId : String
  signatureData : String
deriving DecidableEq, Repr

/-- Field of a signing session, from the TS interface DocumentField
restricted to the members the signing gate reads. -/
structure SessionField where
  id : String
  field_type : FieldType
deriving DecidableEq, Repr

/-- From SigningPage requiredSignatureFields: the session fields whose
type is signature or initial. -/
def requiredSignatureFields (fields : List SessionField) : List SessionField :=
  fields.filter fun f =>
    decide (f.field_type = FieldType.signature) || decide (f.field_type = FieldType.initial)

/-- From SigningPage allSignaturesComplete: every required signature field
has a saved signature. -/
def allSignaturesComplete (fields : List SessionField)
    (signatures : List SignatureValue) : Bool :=
  (requiredSignatureFields fields).all fun f =>
    signatures.any fun s => decide (s.fieldId = f.id)

/-- From SigningPage handleSubmit: the submission request is sent exactly
when a token is present and allSignaturesComplete holds; the collected
field values are posted along but play no part in the guard. -/
def handleSubmitFires (token : Option String) (fields : List SessionField)
    (signatures : List SignatureValue) : Bool :=
  token.isSome && allSignaturesComplete fields signatures

/-- Stated from the words of claim C5, not from the code, for comparison
with the gate the code implements: every bound field of every type must be
satisfied, signature and initial fields by a saved signature, date and
text fields by a nonempty submitted value. -/
def claimEveryFieldSatisfied (fields : List SessionField)
    (signatures : List SignatureValue) (values : List FieldValue) : Bool :=
  fields.all fun f =>
    match f.field_type with
    | FieldType.signature => signatures.any fun s => decide (s.fieldId = f.id)
    | FieldType.initial => signatures.any fun s => decide (s.fieldId = f.id)
    | FieldType.date => values.any fun v => decide (v.fieldId = f.id) && decide (v.value ≠ "")
    | FieldType.text => values.any fun v => decide (v.fieldId = f.id) && decide (v.value ≠ "")

/-- C5 counterexample: on a session with one signature field (signed) and
one text field whose submitted value is empty, the submission gate fires
although the text field lacks a value, so the gate does not cover every
field type as the claim states. -/
theorem c5_counterexample :
    handleSubmitFires (some "tok")
      [{ id := "f1", field_type := FieldType.signature },
       { id := "f2", field_type := FieldType.text }]
      [{ fieldId := "f1", signatureData := "img" }] = true ∧
    claimEveryFieldSatisfied
      [{ id := "f1", field_type := FieldType.signature },
       { id := "f2", field_type := FieldType.text }]
      [{ fieldId := "f1", signatureData := "img" }]
      [{ fieldId := "f2", value := "" }] = false := by
  exact ⟨rfl, rfl⟩

/-- C5 amended: the signed-submission gate fires exactly when a signing
token is present and every signature and initial field bound to the signer
has a saved signature; date and text fields are not part of the gate. -/
theorem c5_signature_gate (token : Option String) (fields : List SessionField)
    (signatures : List SignatureValue) :
    handleSubmitFires token fields signatures = true ↔
      (token.isSome = true ∧
        ∀ f ∈ fields,
          (f.field_type = FieldType.signature ∨ f.field_type = FieldType.initial) →
            ∃ s ∈ signatures, s.fieldId = f.id) := by
  unfold handleSubmitFires allSignaturesComplete requiredSignatureFields
  rw [Bool.and_eq_true]
  simp only [List.all_eq_true, List.mem_filter, List.any_eq_true,
    Bool.or_eq_true, decide_eq_true_iff, and_imp]

/-- Embedding of the JS Array findIndex used by the signing page state
updates: index of the first element satisfying the test, if any. -/
def findIndex (p : α → Bool) : List α → Option Nat
  | [] => none
  | x :: xs => if p x then some 0 else (findIndex p xs).map (fun j => j + 1)

/-- From SigningPage handleSignatureSave: if a signature for the active
field exists, the list is copied with the found index overwritten,
otherwise the new signature is appended. -/
def handleSignatureSave (prev : List SignatureValue)
    (activeSignatureField signatureData : String) : List SignatureValue :=
  match findIndex (fun s => decide (s.fieldId = activeSignatureField)) prev with
  | some i =>
      prev.set i { fieldId := activeSignatureField, signatureData := signatureData }
  | none => prev ++ [{ fieldId := activeSignatureField, signatureData := signatureData }]

/-- From SigningPage handleFieldValueChange: the same replace-or-append
update for date and text values. -/
def handleFieldValueChange (prev : List FieldValue)
    (fieldId value : String) : List FieldValue :=
  match findIndex (fun f => decide (f.fieldId = fieldId)) prev with
  | some i => prev.set i { fieldId := fieldId, value := value }
  | none => prev ++ [{ fieldId := fieldId, value := value }]

theorem findIndex_eq_none_iff (p : α → Bool) :
    ∀ (l : List α), findIndex p l = none ↔ ∀ x ∈ l, p x = false
  | [] => by simp [findIndex]
  | x :: xs => by
      simp only [findIndex]
      by_cases h : p x = true
      · rw [if_pos h]
        simp [h]
      · rw [if_neg h]
        rw [show ((findIndex p xs).map (fun j => j + 1) = none) ↔ findIndex p xs = none from
          Option.map_eq_none', findIndex_eq_none_iff p xs]
        constructor
        · intro hall y hy
          cases List.mem_cons.mp hy with
          | inl hyx => rw [hyx]; exact Bool.eq_false_iff.mpr h
          | inr hyxs => exact hall y hyxs
        · intro hall y hy
          exact hall y (List.mem_cons_of_mem x hy)

theorem findIndex_some_spec (p : α → Bool) :
    ∀ (l : List α) (i : Nat), findIndex p l = some i →
      ∃ x, l[i]? = some x ∧ p x = true
  | [], _, h => by cases h
  | x :: xs, i, h => by
      simp only [findIndex] at h
      by_cases hp : p x = true
      · rw [if_pos hp] at h
        cases h
        exact ⟨x, by simp, hp⟩
      · rw [if_neg hp] at h
        cases hi : findIndex p xs with
        | none => rw [hi] at h; cases h
        | some j =>
            rw [hi] at h
            obtain ⟨y, hy, hpy⟩ := findIndex_some_spec p xs j hi
            cases h
            exact ⟨y, by simpa using hy, hpy⟩

theorem set_eq_self_of_getElem? :
    ∀ (l : List α) (i : Nat) (a : α), l[i]? = some a → l.set i a = l
  | [], _, _, h => by cases h
  | x :: xs, 0, a, h => by
      simp only [List.getElem?_cons_zero, Option.some.injEq] at h
      rw [List.set_cons_zero, h]
  | x :: xs, i + 1, a, h => by
      simp only [List.getElem?_cons_succ] at h
      rw [List.set_cons_succ, set_eq_self_of_getElem? xs i a h]

theorem upsert_map_key_nodup (key : α → String) (l : List α) (a : α)
    (hnd : (l.map key).Nodup) :
    (((match findIndex (fun x => decide (key x = key a)) l with
       | some i => l.set i a
       | none => l ++ [a]) : List α).map key).Nodup := by
  cases hidx : findIndex (fun x => decide (key x = key a)) l with
  | none =>
      have hall := (findIndex_eq_none_iff _ l).mp hidx
      rw [List.map_append]
      refine hnd.append (List.nodup_singleton _) ?_
      intro b hb hb2
      simp only [List.map_cons, List.map_nil, List.mem_singleton] at hb2
      obtain ⟨x, hx, hxk⟩ := List.mem_map.mp hb
      have := hall x hx
      rw [decide_eq_false_iff_not] at this
      exact this (by rw [hxk, hb2])
  | some i =>
      obtain ⟨x, hx, hpx⟩ := findIndex_some_spec _ l i hidx
      have hkey : key x = key a := of_decide_eq_true hpx
      rw [List.map_set]
      have hgi : (l.map key)[i]? = some (key a) := by
        rw [List.getElem?_map, hx]
        simp [hkey]
      rw [set_eq_self_of_getElem? _ _ _ hgi]
      exact hnd

theorem upsert_map_key_of_mem (key : α → String) (l : List α) (a : α)
    (hmem : key a ∈ l.map key) :
    ∃ i, findIndex (fun x => decide (key x = key a)) l = some i := by
  cases hidx : findIndex (fun x => decide (key x = key a)) l with
  | none =>
      obtain ⟨x, hx, hxk⟩ := List.mem_map.mp hmem
      have := (findIndex_eq_none_iff _ l).mp hidx x hx
      rw [decide_eq_false_iff_not] at this
      exact absurd hxk this
  | some i => exact ⟨i, rfl⟩

theorem handleSignatureSave_map_nodup (prev : List SignatureValue) (fid data : String)
    (hnd : (prev.map SignatureValue.fieldId).Nodup) :
    ((handleSignatureSave prev fid data).map SignatureValue.fieldId).Nodup :=
  upsert_map_key_nodup SignatureValue.fieldId prev
    { fieldId := fid, signatureData := data } hnd

theorem handleFieldValueChange_map_nodup (prev : List FieldValue) (fid v : String)
    (hnd : (prev.map FieldValue.fieldId).Nodup) :
    ((handleFieldValueChange prev fid v).map FieldValue.fieldId).Nodup :=
  upsert_map_key_nodup FieldValue.fieldId prev { fieldId := fid, value := v } hnd

/-- C9: the signing-page state updates keep at most one entry per field
id.  From any state whose field ids are pairwise distinct, any sequence of
signature saves and field-value edits preserves that distinctness; a save
for a field that already has an entry replaces it in place (the length is
unchanged); and a save for a new field appends exactly one entry. -/
theorem c9_upsert_unique_field_ids
    (sigOps valOps : List (String × String))
    (s0 : List SignatureValue) (v0 : List FieldValue)
    (hs : (s0.map SignatureValue.fieldId).Nodup)
    (hv : (v0.map FieldValue.fieldId).Nodup) :
    ((sigOps.foldl (fun l p => handleSignatureSave l p.1 p.2) s0).map
        SignatureValue.fieldId).Nodup ∧
    ((valOps.foldl (fun l p => handleFieldValueChange l p.1 p.2) v0).map
        FieldValue.fieldId).Nodup ∧
    (∀ (l : List SignatureValue) (fid data : String),
       fid ∈ l.map SignatureValue.fieldId →
         (handleSignatureSave l fid data).length = l.length) ∧
    (∀ (l : List SignatureValue) (fid data : String),
       fid ∉ l.map SignatureValue.fieldId →
         handleSignatureSave l fid data
           = l ++ [{ fieldId := fid, signatureData := data }]) := by
  refine ⟨?_, ?_, ?_, ?_⟩
  · clear hv
    induction sigOps generalizing s0 with
    | nil => exact hs
    | cons p ps ih =>
        exact ih (handleSignatureSave s0 p.1 p.2)
          (handleSignatureSave_map_nodup s0 p.1 p.2 hs)
  · clear hs
    induction valOps generalizing v0 with
    | nil => exact hv
    | cons p ps ih =>
        exact ih (handleFieldValueChange v0 p.1 p.2)
          (handleFieldValueChange_map_nodup v0 p.1 p.2 hv)
  · intro l fid data hmem
    obtain ⟨i, hi⟩ := upsert_map_key_of_mem SignatureValue.fieldId l
      { fieldId := fid, signatureData := data } hmem
    unfold handleSignatureSave
    rw [hi]
    exact List.length_set ..
  · intro l fid data hmem
    unfold handleSignatureSave
    have hnone : findIndex (fun s => decide (s.fieldId = fid)) l = none := by
      rw [findIndex_eq_none_iff]
      intro x hx
      rw [decide_eq_false_iff_not]
      intro hk
      exact hmem (List.mem_map.mpr ⟨x, hx, hk⟩)
    rw [hnone]

theorem c9_upsert_unique_field_ids_witness :
    ((([("f1", "d1"), ("f2", "d2"), ("f1", "d3")] : List (String × String)).foldl
        (fun l p => handleSignatureSave l p.1 p.2)
        ([] : List SignatureValue)).map SignatureValue.fieldId).Nodup :=
  (c9_upsert_unique_field_ids [("f1", "d1"), ("f2", "d2"), ("f1", "d3")] []
    [] [] List.nodup_nil List.nodup_nil).1

/-- Document field row, from the TS interface DocumentField; the f64
pixel geometry is modelled over the integers. -/
structure DocumentField where
  id : String
  field_type : FieldType
  page : Nat
  x : Int
  y : Int
  width : Int
  height : Int
  signer_id : Option String
  value : Option String
deriving DecidableEq, Repr

/-- Field mutation operations of the Field Binding Registry: add, update
of the geometry, delete. -/
inductive FieldOp where
  | add (f : DocumentField)
  | update (fieldId : String) (nx ny nw nh : Int)
  | del (fieldId : String)
deriving DecidableEq, Repr

/-- Document together with its placed fields, as the registry sees it. -/
structure RegistryDoc where
  status : DocumentStatus
  fields : List DocumentField
deriving DecidableEq, Repr

/-- Modelled from the spec: the Field Binding Registry gates every field
mutation on the document status; add, update and delete fail with
ValidationFailure and change nothing when the status is not draft. -/
def applyFieldOp (d : RegistryDoc) (op : FieldOp) : RegistryDoc × Option SvError :=
  if d.status ≠ DocumentStatus.draft then (d, some SvError.validationFailure)
  else
    match op with
    | FieldOp.add f => ({ d with fields := d.fields ++ [f] }, none)
    | FieldOp.update fid nx ny nw nh =>
        ({ d with fields := d.fields.map fun f =>
            if f.id = fid then { f with x := nx, y := ny, width := nw, height := nh }
            else f }, none)
    | FieldOp.del fid =>
        ({ d with fields := d.fields.filter fun f => decide (f.id ≠ fid) }, none)

/-- From DocumentEditorPage renderOverlay: every field is rendered
read-only whenever the document status is not draft. -/
def editorReadOnly (status : DocumentStatus) : Bool :=
  decide (status ≠ DocumentStatus.draft)

/-- From DraggableField handleMouseDown: when readOnly the handler returns
before wiring any update; otherwise dragging by (dx, dy) moves the field,
clamping the new position at zero. -/
def handleMouseDown (readOnly : Bool) (fieldX fieldY dx dy : Int) :
    Option (Int × Int) :=
  if readOnly then none
  else some (max 0 (fieldX + dx), max 0 (fieldY + dy))

/-- C6: once the document status is not draft, every field mutation (add,
update, delete) fails with ValidationFailure and leaves the fields
unchanged, and the editor drag handler produces no update because the
overlay is read-only. -/
theorem c6_draft_immutability (d : RegistryDoc) (op : FieldOp)
    (h : d.status ≠ DocumentStatus.draft) :
    applyFieldOp d op = (d, some SvError.validationFailure) ∧
    (applyFieldOp d op).1.fields = d.fields ∧
    ∀ (fx fy dx dy : Int),
      handleMouseDown (editorReadOnly d.status) fx fy dx dy = none := by
  have h1 : applyFieldOp d op = (d, some SvError.validationFailure) := by
    unfold applyFieldOp
    rw [if_pos h]
  refine ⟨h1, by rw [h1], ?_⟩
  intro fx fy dx dy
  unfold handleMouseDown editorReadOnly
  rw [if_pos (decide_eq_true h)]

theorem c6_draft_immutability_witness :
    applyFieldOp { status := DocumentStatus.pending, fields := [] }
        (FieldOp.add { id := "f1", field_type := FieldType.signature, page := 1,
                       x := 100, y := 100, width := 200, height := 60,
                       signer_id := none, value := none })
      = ({ status := DocumentStatus.pending, fields := [] },
         some SvError.validationFailure) :=
  (c6_draft_immutability { status := DocumentStatus.pending, fields := [] }
    (FieldOp.add { id := "f1", field_type := FieldType.signature, page := 1,
                   x := 100, y := 100, width := 200, height := 60,
                   signer_id := none, value := none }) (by decide)).1

/-- Per-document state consumed by the send transition: status, self-sign
flag, signer statuses and the audit ledger. -/
structure SendState where
  status : DocumentStatus
  self_sign_only : Bool
  signers : List SignerStatus
  ledger : List AuditLogEntry
deriving DecidableEq, Repr

/-- Modelled from the spec: draft to pending requires at least one signer
unless self_sign_only; an illegal send fails with a policy violation and
appends no ledger entry; a legal send marks every signer sent, sets the
status to pending and appends the document_sent entry. -/
def sendDocument (d : SendState) (c : EntryContent) : SendState × Option SvError :=
  if d.status ≠ DocumentStatus.draft then (d, some SvError.illegalTransition)
  else if d.signers.isEmpty && !d.self_sign_only then
    (d, some SvError.illegalTransition)
  else
    ({ d with
        status := DocumentStatus.pending,
        signers := d.signers.map (fun _ => SignerStatus.sent),
        ledger := appendEntry d.ledger c }, none)

/-- From DocumentEditorPage: the Send for Signing button is disabled while
sending or when a non self-sign document has no signers. -/
def sendButtonDisabled (isSending : Bool) (self_sign_only : Bool)
    (numSigners : Nat) : Bool :=
  isSending || (!self_sign_only && decide (numSigners = 0))

/-- C7: the send transition succeeds only when the document has at least
one signer or is self-sign only; attempting to send an empty non
self-sign document fails with a policy violation, changes nothing and
appends no ledger entry; and the editor disables the send button exactly
in that situation. -/
theorem c7_send_requires_signers (d : SendState) (c : EntryContent)
    (hempty : d.signers = []) (hss : d.self_sign_only = false) :
    sendDocument d c = (d, some SvError.illegalTransition) ∧
    (sendDocument d c).1.ledger = d.ledger ∧
    (∀ (d2 : SendState) (c2 : EntryContent), (sendDocument d2 c2).2 = none →
      (d2.signers ≠ [] ∨ d2.self_sign_only = true)) ∧
    ∀ (b : Bool), sendButtonDisabled b false 0 = true := by
  have h1 : sendDocument d c = (d, some SvError.illegalTransition) := by
    unfold sendDocument
    by_cases hst : d.status ≠ DocumentStatus.draft
    · rw [if_pos hst]
    · rw [if_neg hst, if_pos (by rw [hempty, hss]; rfl)]
  refine ⟨h1, by rw [h1], ?_, ?_⟩
  · intro d2 c2 hok
    by_cases hne : d2.signers = []
    · by_cases hsso : d2.self_sign_only = true
      · exact Or.inr hsso
      · exfalso
        unfold sendDocument at hok
        by_cases hst : d2.status ≠ DocumentStatus.draft
        · rw [if_pos hst] at hok
          cases hok
        · rw [if_neg hst,
            if_pos (by rw [hne, Bool.eq_false_iff.mpr hsso]; rfl)] at hok
          cases hok
    · exact Or.inl hne
  · intro b
    cases b <;> rfl

theorem c7_send_requires_signers_witness :
    sendDocument { status := DocumentStatus.draft, self_sign_only := false,
                   signers := [], ledger := [] }
        { document_id := "doc1", signer_id := none, user_id := some "u1",
          action := AuditAction.document_sent, ip_address := none,
          user_agent := none, details := none, created_at := 150 }
      = ({ status := DocumentStatus.draft, self_sign_only := false,
           signers := [], ledger := [] }, some SvError.illegalTransition) :=
  (c7_send_requires_signers
    { status := DocumentStatus.draft, self_sign_only := false,
      signers := [], ledger := [] }
    { document_id := "doc1", signer_id := none, user_id := some "u1",
      action := AuditAction.document_sent, ip_address := none,
      user_agent := none, details := none, created_at := 150 }
    rfl rfl).1

/-- HTTP method of a client request. -/
inductive HttpMethod where
  | get
  | post
  | put
  | delete
deriving DecidableEq, Repr

/-- Shape of a request issued by the TS ApiClient: method, path segments
and whether a body is attached. -/
structure ClientRequest where
  method : HttpMethod
  path : List String
  hasBody : Bool
deriving DecidableEq, Repr

/-- From ApiClient getAuditLogs: GET /documents/:id/audit with no body. -/
def getAuditLogsRequest (documentId : String) : ClientRequest :=
  { method := HttpMethod.get, path := ["documents", documentId, "audit"],
    hasBody := false }

/-- From ApiClient getCertificate: GET /documents/:id/certificate with no
body. -/
def getCertificateRequest (documentId : String) : ClientRequest :=
  { method := HttpMethod.get, path := ["documents", documentId, "certificate"],
    hasBody := false }

/-- Backing store consulted by the read-only query surfaces: per document
the audit ledger and the optionally stored certificate. -/
structure ReadStore where
  ledgers : List (List AuditLogEntry)
  certificates : List (Option Certificate)
deriving DecidableEq, Repr

/-- Read queries of the audit and certificate surfaces. -/
inductive ReadQuery where
  | auditLogs (docIdx : Nat)
  | certificateQuery (docIdx : Nat)
  | verifyQuery (docIdx : Nat)
deriving DecidableEq, Repr

/-- Responses of the read-only query surfaces. -/
inductive ReadResponse where
  | logs (entries : List AuditLogEntry)
  | cert (c : Option Certificate)
  | verdict (broken_at : Option Nat)
deriving DecidableEq, Repr

/-- Modelled from the spec: the audit, certificate and verify endpoints
are query surfaces; each returns data derived from the store (the verify
endpoint the pure verification of the stored entries) and hands the store
back unchanged. -/
def handleReadQuery (s : ReadStore) (q : ReadQuery) : ReadStore × ReadResponse :=
  match q with
  | ReadQuery.auditLogs i => (s, ReadResponse.logs (s.ledgers.getD i []))
  | ReadQuery.certificateQuery i =>
      (s, ReadResponse.cert (s.certificates.getD i none))
  | ReadQuery.verifyQuery i =>
      (s, ReadResponse.verdict (verify (s.ledgers.getD i [])))

/-- C8: the audit, certificate and verify surfaces are read-only: the TS
client issues bodyless GET requests for them, every read query hands the
store (documents, signers, fields, ledgers live behind it) back unchanged,
and the verify response is the pure verification of the stored entries. -/
theorem c8_read_only_endpoints (s : ReadStore) (q : ReadQuery)
    (documentId : String) (i : Nat) :
    (handleReadQuery s q).1 = s ∧
    (getAuditLogsRequest documentId).method = HttpMethod.get ∧
    (getAuditLogsRequest documentId).hasBody = false ∧
    (getCertificateRequest documentId).method = HttpMethod.get ∧
    (getCertificateRequest documentId).hasBody = false ∧
    (handleReadQuery s (ReadQuery.verifyQuery i)).2
      = ReadResponse.verdict (verify (s.ledgers.getD i [])) := by
  refine ⟨?_, rfl, rfl, rfl, rfl, rfl⟩
  cases q <;> rfl

/-- State of the SignaturePad component: the number of strokes drawn on
the canvas (the data url payload is abstracted by this count) and the
React isEmpty flag that drives the Save button disabling. -/
structure PadState where
  strokes : Nat
  isEmptyFlag : Bool
deriving DecidableEq, Repr

/-- Events of the SignaturePad: finishing a stroke (onEnd), the Clear
button, the Save Signature button and the Cancel button. -/
inductive PadEvent where
  | strokeEnd
  | clickClear
  | clickSave
  | clickCancel
deriving DecidableEq, Repr

/-- Outputs the component can emit to its parent callbacks. -/
inductive PadOutput where
  | save (strokes : Nat)
  | cancel
deriving DecidableEq, Repr

/-- Canvas isEmpty(): no stroke has been drawn. -/
def canvasIsEmpty (s : PadState) : Bool :=
  decide (s.strokes = 0)

/-- From SignaturePad: finishing a stroke adds it and handleEnd refreshes
the flag from isEmpty(); handleClear wipes the canvas and sets the flag;
handleSave re-checks isEmpty() and invokes onSave only on a non-empty
canvas; Cancel invokes onCancel. -/
def padStep (s : PadState) : PadEvent → PadState × Option PadOutput
  | PadEvent.strokeEnd =>
      ({ strokes := s.strokes + 1, isEmptyFlag := decide (s.strokes + 1 = 0) }, none)
  | PadEvent.clickClear => ({ strokes := 0, isEmptyFlag := true }, none)
  | PadEvent.clickSave =>
      if canvasIsEmpty s then (s, none)
      else (s, some (PadOutput.save s.strokes))
  | PadEvent.clickCancel => (s, some PadOutput.cancel)

/-- Freshly mounted pad: empty canvas, Save disabled. -/
def padInit : PadState :=
  { strokes := 0, isEmptyFlag := true }

/-- Component state after a sequence of pad events. -/
def runPad (s : PadState) (es : List PadEvent) : PadState :=
  es.foldl (fun t e => (padStep t e).1) s

theorem padStep_flag (t : PadState) (e : PadEvent)
    (hinv : t.isEmptyFlag = canvasIsEmpty t) :
    (padStep t e).1.isEmptyFlag = canvasIsEmpty (padStep t e).1 := by
  cases e with
  | strokeEnd => rfl
  | clickClear => rfl
  | clickSave =>
      by_cases hc : canvasIsEmpty t = true
      · simp only [padStep, if_pos hc]
        exact hinv
      · simp only [padStep, if_neg hc]
        exact hinv
  | clickCancel => exact hinv

theorem runPad_flag (es : List PadEvent) :
    ∀ (t : PadState), t.isEmptyFlag = canvasIsEmpty t →
      (runPad t es).isEmptyFlag = canvasIsEmpty (runPad t es) := by
  induction es with
  | nil => intro t h; exact h
  | cons e es ih => intro t h; exact ih (padStep t e).1 (padStep_flag t e h)

/-- C10: the SignaturePad never emits an empty signature: a save output
arises only from the Save click on a canvas with at least one stroke and
carries exactly that canvas content; Clear and Cancel never emit a save;
and from the initial state the flag disabling the Save button always
agrees with the canvas being empty. -/
theorem c10_signature_pad_nonempty (s s2 : PadState) (e : PadEvent) (k : Nat)
    (hemit : padStep s e = (s2, some (PadOutput.save k))) :
    s.strokes ≠ 0 ∧ e = PadEvent.clickSave ∧ k = s.strokes ∧
    (∀ (t : PadState), (padStep t PadEvent.clickClear).2 ≠ some (PadOutput.save k)) ∧
    (∀ (t : PadState), (padStep t PadEvent.clickCancel).2 ≠ some (PadOutput.save k)) ∧
    ∀ (es : List PadEvent),
      (runPad padInit es).isEmptyFlag = canvasIsEmpty (runPad padInit es) := by
  have hrest :
      (∀ (t : PadState), (padStep t PadEvent.clickClear).2 ≠ some (PadOutput.save k)) ∧
      (∀ (t : PadState), (padStep t PadEvent.clickCancel).2 ≠ some (PadOutput.save k)) ∧
      ∀ (es : List PadEvent),
        (runPad padInit es).isEmptyFlag = canvasIsEmpty (runPad padInit es) := by
    refine ⟨(fun t h => by cases h), (fun t h => by cases h),
      (fun es => runPad_flag es padInit rfl)⟩
  cases e with
  | strokeEnd => cases hemit
  | clickClear => cases hemit
  | clickCancel =>
      exfalso
      have := congrArg Prod.snd hemit
      simp only [padStep] at this
      cases this
  | clickSave =>
      by_cases hc : canvasIsEmpty s = true
      · simp only [padStep, if_pos hc] at hemit
        cases hemit
      · simp only [padStep, if_neg hc] at hemit
        have hk : k = s.strokes := by
          have := congrArg Prod.snd hemit
          simp only at this
          cases this
          rfl
        have hnz : s.strokes ≠ 0 := by
          intro h0
          exact hc (by unfold canvasIsEmpty; rw [h0]; rfl)
        exact ⟨hnz, rfl, hk, hrest⟩

theorem c10_signature_pad_nonempty_witness :
    ({ strokes := 2, isEmptyFlag := false } : PadState).strokes ≠ 0 :=
  (c10_signature_pad_nonempty { strokes := 2, isEmptyFlag := false }
    { strokes := 2, isEmptyFlag := false } PadEvent.clickSave 2 (by rfl)).1

end SignVault
